import Mathlib

/-!
Verification of the core accounting and settlement logic of the AllInBank
repository (`bank_core.py`).  Python floats are modelled as exact rationals,
Python dicts as insertion-ordered association lists, Python's `round(x, 2)`
as round-half-to-even at two decimal places, Python's stable `list.sort` as a
stable insertion sort, and the unbounded `while` loop of
`min_cash_flow_settlement` as a fuel-indexed step function.
-/

namespace AllInBank

/-- A Python dict `str -> float`, as an insertion-ordered association list
with unique keys maintained by `dset`. -/
abbrev Dict := List (String × ℚ)

/-- A settlement transfer `(debtor, creditor, amount)`. -/
abbrev Transfer := String × String × ℚ

/-- `d.get(k, 0.0)` of a Python dict: value of the first entry for `k`,
or `0` when absent. -/
def dget (d : Dict) (k : String) : ℚ :=
  ((d.find? (fun p => p.1 == k)).map Prod.snd).getD 0

/-- `d[k] = v` of a Python dict: replace the entry in place when the key is
present, otherwise append it at the end (insertion order). -/
def dset : Dict → String → ℚ → Dict
  | [], k, v => [(k, v)]
  | (k', v') :: t, k, v =>
    if k' == k then (k, v) :: t else (k', v') :: dset t k v

/-- The key list of a dict. -/
def keys (d : Dict) : List String := d.map Prod.fst

/-- Round a rational to the nearest integer, ties to even
(Python's `round` on a number half-way between two integers). -/
def rhe (q : ℚ) : ℤ :=
  let f := ⌊q⌋
  let r := q - f
  if r < 1 / 2 then f
  else if 1 / 2 < r then f + 1
  else if f % 2 = 0 then f else f + 1

/-- Python's `round(x, 2)`: round to two decimal places, ties to even. -/
def round2 (q : ℚ) : ℚ := (rhe (q * 100) : ℚ) / 100

/-- A rational is an exact multiple of a cent. -/
def Cent (q : ℚ) : Prop := ∃ k : ℤ, q = (k : ℚ) / 100

/-- The `Ledger` dataclass of `bank_core.py`. -/
structure Ledger where
  buyins : Dict
  cashouts : Dict
deriving DecidableEq

/-- `Ledger()`: both mappings start empty. -/
def Ledger.empty : Ledger := ⟨[], []⟩

/-- `Ledger.add_buyin`: `self.buyins[player] = self.buyins.get(player, 0.0) + amount`. -/
def Ledger.add_buyin (l : Ledger) (player : String) (amount : ℚ) : Ledger :=
  { l with buyins := dset l.buyins player (dget l.buyins player + amount) }

/-- `Ledger.set_cashout`: `self.cashouts[player] = amount`. -/
def Ledger.set_cashout (l : Ledger) (player : String) (amount : ℚ) : Ledger :=
  { l with cashouts := dset l.cashouts player amount }

/-- `Ledger.add_cashout`: `self.cashouts[player] = self.cashouts.get(player, 0.0) + amount`. -/
def Ledger.add_cashout (l : Ledger) (player : String) (amount : ℚ) : Ledger :=
  { l with cashouts := dset l.cashouts player (dget l.cashouts player + amount) }

/-- `Ledger.total_buyin`: `sum(self.buyins.values())`. -/
def Ledger.total_buyin (l : Ledger) : ℚ := (l.buyins.map Prod.snd).sum

/-- `Ledger.total_cashout`: `sum(self.cashouts.values())`. -/
def Ledger.total_cashout (l : Ledger) : ℚ := (l.cashouts.map Prod.snd).sum

/-- `Ledger.balances`: for each player of the roster, store
`round(cashouts.get(p, 0.0) - buyins.get(p, 0.0), 2)` into a fresh dict. -/
def Ledger.balances (l : Ledger) (all_players : List String) : Dict :=
  all_players.foldl
    (fun bal p => dset bal p (round2 (dget l.cashouts p - dget l.buyins p))) []

/-- The floating-point tolerance `eps = 1e-9` of `min_cash_flow_settlement`. -/
def eps : ℚ := 1 / 1000000000

/-- Insert `x` into `l` directly before the first element `y` with `bf x y`
(`bf x y` = `x` must sort strictly before `y`): the insertion step of a
stable sort. -/
def insertBefore (bf : α → α → Bool) (x : α) : List α → List α
  | [] => [x]
  | y :: ys => if bf x y then x :: y :: ys else y :: insertBefore bf x ys

/-- Stable insertion sort: the behaviour of Python's stable `list.sort`
for the given strictly-precedes relation. -/
def stableSort (bf : α → α → Bool) (l : List α) : List α :=
  l.foldl (fun acc x => insertBefore bf x acc) []

/-- The debtor list of `min_cash_flow_settlement`: entries with
`net < -eps`, sorted ascending by net (most negative first, stable). -/
def debtorsOf (bal : Dict) : List (String × ℚ) :=
  stableSort (fun a b => decide (a.2 < b.2)) (bal.filter (fun p => decide (p.2 < -eps)))

/-- The creditor list of `min_cash_flow_settlement`: entries with
`net > eps`, sorted descending by net (most positive first, stable). -/
def creditorsOf (bal : Dict) : List (String × ℚ) :=
  stableSort (fun a b => decide (b.2 < a.2)) (bal.filter (fun p => decide (eps < p.2)))

/-- The state of the `while` loop of `min_cash_flow_settlement`: the input
dict (read-only), the two working lists, the two cursors and the
accumulated transfer list. -/
structure LoopState where
  bal : Dict
  debtors : List (String × ℚ)
  creditors : List (String × ℚ)
  i : Nat
  j : Nat
  transfers : List Transfer
deriving DecidableEq

/-- `debtors[i]` (out-of-range values are irrelevant: the loop only reads
within bounds). -/
def curD (s : LoopState) : String × ℚ := s.debtors.getD s.i ("", 0)

/-- `creditors[j]`. -/
def curC (s : LoopState) : String × ℚ := s.creditors.getD s.j ("", 0)

/-- `pay = round(min(-debtor_amt, creditor_amt), 2)`. -/
def payOf (s : LoopState) : ℚ := round2 (min (-(curD s).2) (curC s).2)

/-- `debtor_amt` after the `if pay > 0` block (`debtor_amt += pay`). -/
def dAfter (s : LoopState) : ℚ :=
  if 0 < payOf s then (curD s).2 + payOf s else (curD s).2

/-- `creditor_amt` after the `if pay > 0` block (`creditor_amt -= pay`). -/
def cAfter (s : LoopState) : ℚ :=
  if 0 < payOf s then (curC s).2 - payOf s else (curC s).2

/-- `transfers` after the `if pay > 0` block (append the emitted triple). -/
def tAfter (s : LoopState) : List Transfer :=
  if 0 < payOf s then s.transfers ++ [((curD s).1, (curC s).1, payOf s)]
  else s.transfers

/-- One iteration of the loop body: emit the transfer when `pay > 0`, then
advance the debtor cursor when `debtor_amt >= -eps` (else write the
remainder back into `debtors[i]`), and likewise for the creditor cursor. -/
def step (s : LoopState) : LoopState :=
  { bal := s.bal
    debtors :=
      if -eps ≤ dAfter s then s.debtors
      else s.debtors.set s.i ((curD s).1, dAfter s)
    creditors :=
      if cAfter s ≤ eps then s.creditors
      else s.creditors.set s.j ((curC s).1, cAfter s)
    i := if -eps ≤ dAfter s then s.i + 1 else s.i
    j := if cAfter s ≤ eps then s.j + 1 else s.j
    transfers := tAfter s }

/-- The guard `i < len(debtors) and j < len(creditors)` of the loop. -/
def cond (s : LoopState) : Prop :=
  s.i < s.debtors.length ∧ s.j < s.creditors.length

instance (s : LoopState) : Decidable (cond s) := by
  unfold cond; infer_instance

/-- The loop state just before the first iteration: partitioned and sorted
lists, both cursors at `0`, no transfers yet. -/
def initState (bal : Dict) : LoopState :=
  ⟨bal, debtorsOf bal, creditorsOf bal, 0, 0, []⟩

/-- Fuel-indexed run of the `while` loop, also threading the state (the
input dict included) so that the frame property is expressible.  `none`
means the fuel ran out before the guard turned false. -/
def loopSt : Nat → LoopState → Option (List Transfer) × LoopState
  | 0, s => (none, s)
  | n + 1, s => if cond s then loopSt n (step s) else (some s.transfers, s)

/-- `min_cash_flow_settlement(balances)` with the given fuel: `some`
transfer list when the loop finishes within the fuel. -/
def min_cash_flow_settlement (bal : Dict) (fuel : Nat) : Option (List Transfer) :=
  (loopSt fuel (initState bal)).1

/-- State-passing form of `min_cash_flow_settlement`: also returns the
balances dict as it stands after the call. -/
def min_cash_flow_settlement_st (bal : Dict) (fuel : Nat) :
    Option (List Transfer) × Dict :=
  ((loopSt fuel (initState bal)).1, (loopSt fuel (initState bal)).2.bal)

/-- The function returns the transfer list `ts` on input `bal`: the loop
terminates with `ts` given sufficient fuel. -/
def Settles (bal : Dict) (ts : List Transfer) : Prop :=
  ∃ n, min_cash_flow_settlement bal n = some ts

/-- Total amount the transfer list directs `n` to pay. -/
def paidBy (ts : List Transfer) (n : String) : ℚ :=
  ((ts.filter (fun t => t.1 == n)).map (fun t => t.2.2)).sum

/-- Total amount the transfer list directs others to pay to `n`. -/
def recvBy (ts : List Transfer) (n : String) : ℚ :=
  ((ts.filter (fun t => t.2.1 == n)).map (fun t => t.2.2)).sum

/-- `normalize_player_name`: strip surrounding whitespace. -/
def normalize_player_name (name : String) : String := name.trim

/-- The central invariant of the settlement loop on a cent-valued input
`bal`: names of the working lists never change; entries already passed by a
cursor are fully settled by the transfers so far; entries at or beyond a
cursor carry exactly the still-unsettled remainder (a cent amount beyond the
tolerance); every transfer goes from a debtor name to a creditor name with a
positive amount; and the total outstanding remainder equals the total of the
input balances. -/
def InvC (bal : Dict) (s : LoopState) : Prop :=
  s.debtors.map Prod.fst = (debtorsOf bal).map Prod.fst ∧
  s.creditors.map Prod.fst = (creditorsOf bal).map Prod.fst ∧
  (∀ p ∈ s.debtors.take s.i, dget bal p.1 + paidBy s.transfers p.1 = 0) ∧
  (∀ p ∈ s.debtors.drop s.i,
    dget bal p.1 + paidBy s.transfers p.1 = p.2 ∧ p.2 < -eps ∧ Cent p.2) ∧
  (∀ p ∈ s.creditors.take s.j, dget bal p.1 - recvBy s.transfers p.1 = 0) ∧
  (∀ p ∈ s.creditors.drop s.j,
    dget bal p.1 - recvBy s.transfers p.1 = p.2 ∧ eps < p.2 ∧ Cent p.2) ∧
  (∀ t ∈ s.transfers, t.1 ∈ (debtorsOf bal).map Prod.fst ∧
    t.2.1 ∈ (creditorsOf bal).map Prod.fst ∧ 0 < t.2.2) ∧
  ((s.debtors.drop s.i).map Prod.snd).sum + ((s.creditors.drop s.j).map Prod.snd).sum
    = (bal.map Prod.snd).sum

/-! ### Facts about the rounding function -/

theorem rhe_intCast (k : ℤ) : rhe (k : ℚ) = k := by
  simp only [rhe, Int.floor_intCast, sub_self]
  norm_num

theorem rhe_nonneg (q : ℚ) (h : 0 ≤ q) : 0 ≤ rhe q := by
  have hf : (0 : ℤ) ≤ ⌊q⌋ := Int.floor_nonneg.mpr h
  simp only [rhe]
  split_ifs <;> omega

theorem sub_rhe_le (q : ℚ) : q - rhe q ≤ 1 / 2 := by
  have h0 : (0 : ℚ) ≤ q - ⌊q⌋ := by
    have := Int.floor_le q; linarith
  have h1 : q - ⌊q⌋ < 1 := by
    have := Int.lt_floor_add_one q; linarith
  simp only [rhe]
  split_ifs with h h' h'' <;> push_cast <;> linarith

theorem round2_intCast_div (k : ℤ) : round2 ((k : ℚ) / 100) = (k : ℚ) / 100 := by
  have h : ((k : ℚ) / 100) * 100 = (k : ℚ) := by
    field_simp
  rw [round2, h, rhe_intCast]

theorem round2_round2 (q : ℚ) : round2 (round2 q) = round2 q := by
  have h : round2 q = ((rhe (q * 100) : ℤ) : ℚ) / 100 := rfl
  rw [h, round2_intCast_div]

theorem round2_nonneg (q : ℚ) (h : 0 ≤ q) : 0 ≤ round2 q := by
  have := rhe_nonneg (q * 100) (by linarith)
  rw [round2]
  positivity

theorem sub_round2_le (q : ℚ) : q - round2 q ≤ 1 / 200 := by
  have := sub_rhe_le (q * 100)
  rw [round2]
  linarith

theorem round2_eq_zero (q : ℚ) (h0 : 0 < q) (h1 : q ≤ 1 / 200) : round2 q = 0 := by
  have hy0 : (0 : ℚ) ≤ q * 100 := by linarith
  have hy1 : q * 100 ≤ 1 / 2 := by linarith
  have hf : ⌊q * 100⌋ = 0 := by
    rw [Int.floor_eq_zero_iff]
    exact ⟨by linarith, by linarith⟩
  have hrhe : rhe (q * 100) = 0 := by
    simp only [rhe, hf, Int.cast_zero, sub_zero]
    split_ifs with ha hb hc
    · rfl
    · linarith
    · rfl
    · omega
  rw [round2, hrhe]
  norm_num

theorem Cent.round2_id {q : ℚ} (h : Cent q) : round2 q = q := by
  obtain ⟨k, rfl⟩ := h
  exact round2_intCast_div k

theorem cent_of_round2_id {q : ℚ} (h : round2 q = q) : Cent q :=
  ⟨rhe (q * 100), h.symm⟩

theorem Cent.neg {q : ℚ} (h : Cent q) : Cent (-q) := by
  obtain ⟨k, rfl⟩ := h
  exact ⟨-k, by push_cast; ring⟩

theorem Cent.add {q r : ℚ} (hq : Cent q) (hr : Cent r) : Cent (q + r) := by
  obtain ⟨k, rfl⟩ := hq
  obtain ⟨m, rfl⟩ := hr
  exact ⟨k + m, by push_cast; ring⟩

theorem Cent.sub {q r : ℚ} (hq : Cent q) (hr : Cent r) : Cent (q - r) := by
  obtain ⟨k, rfl⟩ := hq
  obtain ⟨m, rfl⟩ := hr
  exact ⟨k - m, by push_cast; ring⟩

theorem Cent.min {q r : ℚ} (hq : Cent q) (hr : Cent r) : Cent (min q r) := by
  rcases le_total q r with h | h
  · rwa [min_eq_left h]
  · rwa [min_eq_right h]

theorem Cent.zero : Cent (0 : ℚ) := ⟨0, by norm_num⟩

/-- A positive-beyond-tolerance cent amount is at least one cent. -/
theorem cent_ge_of_eps_lt {q : ℚ} (h : Cent q) (h2 : eps < q) : 1 / 100 ≤ q := by
  obtain ⟨k, rfl⟩ := h
  have hk : (0 : ℚ) < (k : ℚ) := by
    have : (0 : ℚ) < (k : ℚ) / 100 := lt_trans (by rw [eps]; norm_num) h2
    linarith
  have hk0 : (0 : ℤ) < k := by exact_mod_cast hk
  have hk1 : (1 : ℤ) ≤ k := by omega
  have : (1 : ℚ) ≤ (k : ℚ) := by exact_mod_cast hk1
  linarith

/-- A cent amount within the tolerance of zero is exactly zero. -/
theorem cent_eq_zero_of_small {q : ℚ} (h : Cent q) (h1 : -eps ≤ q) (h2 : q ≤ eps) :
    q = 0 := by
  obtain ⟨k, rfl⟩ := h
  have he : eps = 1 / 1000000000 := rfl
  have hk0 : (-(1:ℚ) : ℚ) < (k : ℚ) := by rw [he] at h1; nlinarith
  have hk1 : (k : ℚ) < 1 := by rw [he] at h2; nlinarith
  have : k = 0 := by
    have h1 : (-1 : ℤ) < k := by exact_mod_cast hk0
    have h2 : k < 1 := by exact_mod_cast hk1
    omega
  rw [this]; norm_num

/-! ### Facts about the dict model -/

theorem dget_nil (k : String) : dget [] k = 0 := rfl

theorem dget_cons (p : String × ℚ) (d : Dict) (k : String) :
    dget (p :: d) k = if p.1 = k then p.2 else dget d k := by
  simp only [dget, List.find?]
  by_cases h : p.1 = k
  · simp [h]
  · simp [h, beq_eq_false_iff_ne.mpr h]

theorem dset_cons_eq {p : String × ℚ} {t : Dict} {k v} (h : p.1 = k) :
    dset (p :: t) k v = (k, v) :: t := by
  simp only [dset]
  rw [if_pos (beq_iff_eq.mpr h)]

theorem dset_cons_ne {p : String × ℚ} {t : Dict} {k v} (h : p.1 ≠ k) :
    dset (p :: t) k v = p :: dset t k v := by
  simp only [dset]
  rw [if_neg (by simp [h])]

theorem mem_keys_dset (d : Dict) (k v m) :
    m ∈ keys (dset d k v) ↔ m ∈ keys d ∨ m = k := by
  induction d with
  | nil => simp [dset, keys]
  | cons p t ih =>
    by_cases h : p.1 = k
    · rw [dset_cons_eq h]
      subst h
      simp only [keys, List.map_cons, List.mem_cons]
      tauto
    · rw [dset_cons_ne h]
      simp only [keys, List.map_cons, List.mem_cons] at ih ⊢
      rw [ih]
      tauto

theorem dget_dset_self (d : Dict) (k v) : dget (dset d k v) k = v := by
  induction d with
  | nil => simp [dset, dget_cons]
  | cons p t ih =>
    by_cases h : p.1 = k
    · rw [dset_cons_eq h, dget_cons, if_pos rfl]
    · rw [dset_cons_ne h, dget_cons, if_neg h, ih]

theorem dget_dset_ne (d : Dict) (k v m) (h : k ≠ m) : dget (dset d k v) m = dget d m := by
  induction d with
  | nil => simp [dset, dget_cons, dget_nil, h]
  | cons p t ih =>
    by_cases hp : p.1 = k
    · rw [dset_cons_eq hp, dget_cons, dget_cons, if_neg (by simp [h]), if_neg (hp ▸ h)]
    · rw [dset_cons_ne hp, dget_cons, dget_cons, ih]

/-- Re-storing the incremented value adds the increment to the value sum
(the accumulation step of `add_buyin` / `add_cashout`). -/
theorem sum_dset_add (d : Dict) (k : String) (a : ℚ) :
    ((dset d k (dget d k + a)).map Prod.snd).sum = (d.map Prod.snd).sum + a := by
  induction d with
  | nil => simp [dset, dget_nil]
  | cons p t ih =>
    by_cases h : p.1 = k
    · rw [dset_cons_eq h, dget_cons, if_pos h]
      simp only [List.map_cons, List.sum_cons]
      ring
    · rw [dset_cons_ne h, dget_cons, if_neg h]
      simp only [List.map_cons, List.sum_cons]
      rw [ih]
      ring

/-- In a dict with distinct keys, membership determines the looked-up value. -/
theorem dget_of_mem_nodup {d : Dict} {k : String} {v : ℚ}
    (hn : (keys d).Nodup) (hm : (k, v) ∈ d) : dget d k = v := by
  induction d with
  | nil => simp at hm
  | cons p t ih =>
    simp only [keys, List.map_cons, List.nodup_cons] at hn
    rcases List.mem_cons.mp hm with rfl | hm'
    · simp [dget_cons]
    · have hk : p.1 ≠ k := by
        intro h
        exact hn.1 (h ▸ List.mem_map_of_mem Prod.fst hm')
      rw [dget_cons, if_neg hk]
      exact ih hn.2 hm'

/-- A present key's entry is `(k, dget d k)`. -/
theorem mem_of_mem_keys {d : Dict} {k : String} (h : k ∈ keys d) : (k, dget d k) ∈ d := by
  induction d with
  | nil => simp [keys] at h
  | cons p t ih =>
    by_cases hp : p.1 = k
    · have hv : dget (p :: t) k = p.2 := by rw [dget_cons, if_pos hp]
      rw [hv, ← hp, Prod.mk.eta]
      exact List.mem_cons_self p t
    · have hk : k ∈ keys t := by
        simp only [keys, List.map_cons, List.mem_cons] at h
        tauto
      rw [dget_cons, if_neg hp]
      exact List.mem_cons_of_mem p (ih hk)

/-! ### Facts about the stable sort -/

theorem insertBefore_perm (bf : α → α → Bool) (x : α) (l : List α) :
    List.Perm (insertBefore bf x l) (x :: l) := by
  induction l with
  | nil => rfl
  | cons y ys ih =>
    simp only [insertBefore]
    split_ifs
    · rfl
    · exact (ih.cons y).trans (List.Perm.swap x y ys)

theorem stableSort_perm (bf : α → α → Bool) (l : List α) :
    List.Perm (stableSort bf l) l := by
  suffices h : ∀ acc : List α,
      List.Perm (l.foldl (fun acc x => insertBefore bf x acc) acc) (acc ++ l) by
    simpa using h []
  induction l with
  | nil => simp
  | cons x xs ih =>
    intro acc
    simp only [List.foldl_cons]
    refine (ih (insertBefore bf x acc)).trans ?_
    refine (List.Perm.append_right xs ((insertBefore_perm bf x acc))).trans ?_
    simpa using (List.perm_middle (a := x)).symm

/-! ### Generic list access lemmas used by the loop proofs -/

theorem getD_mem {l : List α} {i : Nat} (h : i < l.length) (d : α) : l.getD i d ∈ l := by
  induction l generalizing i with
  | nil => simp at h
  | cons a t ih =>
    cases i with
    | zero => simp
    | succ i =>
      simp only [List.getD_cons_succ]
      exact List.mem_cons_of_mem a (ih (by simpa using h))

theorem set_getD_self {l : List α} {i : Nat} (h : i < l.length) (d : α) :
    l.set i (l.getD i d) = l := by
  induction l generalizing i with
  | nil => simp
  | cons a t ih =>
    cases i with
    | zero => simp
    | succ i =>
      have h' := ih (i := i) (by simpa using h)
      simp only [List.getD, List.get?_eq_getElem?] at h' ⊢
      simp [h']

theorem drop_eq_getD_cons {l : List α} {i : Nat} (h : i < l.length) (d : α) :
    l.drop i = l.getD i d :: l.drop (i + 1) := by
  induction l generalizing i with
  | nil => simp at h
  | cons a t ih =>
    cases i with
    | zero => simp
    | succ i => simpa using ih (by simpa using h)

theorem drop_set_eq_cons {l : List α} {i : Nat} (h : i < l.length) (v : α) :
    (l.set i v).drop i = v :: l.drop (i + 1) := by
  induction l generalizing i with
  | nil => simp at h
  | cons a t ih =>
    cases i with
    | zero => simp
    | succ i => simpa using ih (by simpa using h)

theorem getD_set_self {l : List α} {i : Nat} (h : i < l.length) (v d : α) :
    (l.set i v).getD i d = v := by
  induction l generalizing i with
  | nil => simp at h
  | cons a t ih =>
    cases i with
    | zero => simp
    | succ i =>
      have h' := ih (i := i) (by simpa using h)
      simpa using h'

theorem take_set_eq {l : List α} {i : Nat} (v : α) : (l.set i v).take i = l.take i := by
  induction l generalizing i with
  | nil => simp
  | cons a t ih =>
    cases i with
    | zero => simp
    | succ i => simp [ih]

theorem take_succ_getD {l : List α} {i : Nat} (h : i < l.length) (d : α) :
    l.take (i + 1) = l.take i ++ [l.getD i d] := by
  induction l generalizing i with
  | nil => simp at h
  | cons a t ih =>
    cases i with
    | zero => simp
    | succ i => simpa using ih (by simpa using h)

/-! ### Generic facts about the settlement loop -/

theorem loopSt_succ (n : Nat) (s : LoopState) :
    loopSt (n + 1) s = if cond s then loopSt n (step s) else (some s.transfers, s) := rfl

/-- A loop state that maps to itself while the guard holds never returns. -/
theorem loop_fix {s : LoopState} (hc : cond s) (hs : step s = s) :
    ∀ n, (loopSt n s).1 = none := by
  intro n
  induction n with
  | zero => rfl
  | succ n ih =>
    rw [loopSt_succ, if_pos hc, hs]
    exact ih

/-- Any property preserved by the loop body holds, together with the negated
guard, at the state whose transfer list the loop returns. -/
theorem loop_reach {P : LoopState → Prop}
    (hstep : ∀ u, cond u → P u → P (step u)) :
    ∀ n s ts, P s → (loopSt n s).1 = some ts →
      ∃ u, P u ∧ ¬ cond u ∧ u.transfers = ts := by
  intro n
  induction n with
  | zero =>
    intro s ts _ h
    simp [loopSt] at h
  | succ n ih =>
    intro s ts hP h
    rw [loopSt_succ] at h
    by_cases hc : cond s
    · rw [if_pos hc] at h
      exact ih _ _ (hstep s hc hP) h
    · rw [if_neg hc] at h
      simp only [Option.some.injEq] at h
      exact ⟨s, hP, hc, h⟩

theorem step_bal (s : LoopState) : (step s).bal = s.bal := rfl

theorem loopSt_bal (n : Nat) (s : LoopState) : ((loopSt n s).2).bal = s.bal := by
  induction n generalizing s with
  | zero => rfl
  | succ n ih =>
    rw [loopSt_succ]
    by_cases hc : cond s
    · rw [if_pos hc, ih, step_bal]
    · rw [if_neg hc]

example : min_cash_flow_settlement [("Alex", -15), ("Bri", 15), ("Casey", 0)] 2 =
    some [("Alex", "Bri", 15)] := by with_unfolding_all decide

example : min_cash_flow_settlement [("d", -(3/500)), ("c", 3/500)] 2 =
    some [("d", "c", 1/100)] := by with_unfolding_all decide

example : min_cash_flow_settlement [("a", -(1/250)), ("b", 1/250)] 50 = none := by with_unfolding_all decide

/-- Auxiliary foldl generalization for `Ledger.balances`. -/
theorem balances_aux (l : Ledger) (roster : List String) (acc : Dict) (n : String) :
    (n ∈ keys (roster.foldl
        (fun bal p => dset bal p (round2 (dget l.cashouts p - dget l.buyins p))) acc)
      ↔ n ∈ keys acc ∨ n ∈ roster) ∧
    (dget (roster.foldl
        (fun bal p => dset bal p (round2 (dget l.cashouts p - dget l.buyins p))) acc) n =
      if n ∈ roster then round2 (dget l.cashouts n - dget l.buyins n) else dget acc n) := by
  induction roster generalizing acc with
  | nil => simp
  | cons r rs ih =>
    simp only [List.foldl_cons]
    obtain ⟨ihm, ihv⟩ := ih (dset acc r (round2 (dget l.cashouts r - dget l.buyins r)))
    constructor
    · rw [ihm, mem_keys_dset]
      simp only [List.mem_cons]
      tauto
    · rw [ihv]
      by_cases hrs : n ∈ rs
      · simp [hrs, List.mem_cons]
      · simp only [hrs, if_false]
        by_cases hnr : n = r
        · subst hnr
          rw [dget_dset_self]
          simp [List.mem_cons]
        · rw [dget_dset_ne _ _ _ _ (Ne.symm hnr)]
          simp [List.mem_cons, hnr, hrs]

/-- **C7.** `balances(roster)` has exactly the roster's names as keys, and each
value is `round(cashouts.get(n, 0) - buyins.get(n, 0), 2)`. -/
theorem c7_balances_roster (l : Ledger) (roster : List String) (n : String) :
    (n ∈ keys (l.balances roster) ↔ n ∈ roster) ∧
    (n ∈ roster →
      dget (l.balances roster) n = round2 (dget l.cashouts n - dget l.buyins n)) := by
  obtain ⟨hm, hv⟩ := balances_aux l roster [] n
  refine ⟨?_, ?_⟩
  · rw [Ledger.balances, hm]
    simp [keys]
  · intro hn
    rw [Ledger.balances, hv, if_pos hn]

/-- Witness for C7 on the test ledger of the repository. -/
theorem c7_witness :
    dget ((Ledger.mk [("Alex", 20), ("Bri", 10)] [("Alex", 5), ("Bri", 25)]).balances
        ["Alex", "Bri", "Casey"]) "Casey" =
      round2 (dget [("Alex", 5), ("Bri", 25)] "Casey" -
        dget [("Alex", 20), ("Bri", 10)] "Casey") :=
  (c7_balances_roster (Ledger.mk [("Alex", 20), ("Bri", 10)] [("Alex", 5), ("Bri", 25)])
    ["Alex", "Bri", "Casey"] "Casey").2 (by simp)

/-- **C8.** Starting from an empty ledger, `total_buyin()` is the exact sum of
all recorded buy-in amounts: the accumulation never rounds. -/
theorem c8_total_buyin_exact_sum (calls : List (String × ℚ)) :
    ((calls.foldl (fun l pc => l.add_buyin pc.1 pc.2) Ledger.empty)).total_buyin
      = (calls.map Prod.snd).sum := by
  suffices h : ∀ l : Ledger,
      ((calls.foldl (fun l pc => l.add_buyin pc.1 pc.2) l)).total_buyin
        = l.total_buyin + (calls.map Prod.snd).sum by
    simpa [Ledger.empty, Ledger.total_buyin] using h Ledger.empty
  induction calls with
  | nil =>
    intro l
    simp
  | cons c cs ih =>
    intro l
    simp only [List.foldl_cons, List.map_cons, List.sum_cons]
    rw [ih]
    have hone : (l.add_buyin c.1 c.2).total_buyin = l.total_buyin + c.2 := by
      unfold Ledger.add_buyin Ledger.total_buyin
      exact sum_dset_add _ _ _
    rw [hone]
    ring

/-- **C9.** The settlement function never mutates the balances dict: the
state-passing run returns the input dict unchanged. -/
theorem c9_balances_unchanged (bal : Dict) (fuel : Nat) :
    (min_cash_flow_settlement_st bal fuel).2 = bal := by
  show ((loopSt fuel (initState bal)).2).bal = bal
  rw [loopSt_bal]
  rfl

/-- **C4.** Every emitted transfer has a strictly positive amount already
rounded to two decimals. -/
theorem c4_transfers_positive_rounded (bal : Dict) (ts : List Transfer)
    (h : Settles bal ts) :
    ∀ t ∈ ts, 0 < t.2.2 ∧ round2 t.2.2 = t.2.2 := by
  obtain ⟨n, hn⟩ := h
  have hreach := loop_reach
    (P := fun s => ∀ t ∈ s.transfers, 0 < t.2.2 ∧ round2 t.2.2 = t.2.2)
    (fun u _ hP t ht => by
      have ht' : t ∈ tAfter u := ht
      rw [tAfter] at ht'
      by_cases hp : 0 < payOf u
      · rw [if_pos hp] at ht'
        rcases List.mem_append.mp ht' with h1 | h2
        · exact hP t h1
        · simp only [List.mem_singleton] at h2
          subst h2
          exact ⟨hp, round2_round2 _⟩
      · rw [if_neg hp] at ht'
        exact hP t ht')
    n (initState bal) ts (by intro t ht; simp [initState] at ht) hn
  obtain ⟨u, hP, -, hts⟩ := hreach
  exact hts ▸ hP

/-- Witness for C4 at the repository's own test input. -/
theorem c4_witness :
    0 < (15 : ℚ) ∧ round2 (15 : ℚ) = 15 :=
  c4_transfers_positive_rounded [("Alex", -15), ("Bri", 15), ("Casey", 0)]
    [("Alex", "Bri", 15)] ⟨2, by with_unfolding_all decide⟩
    ("Alex", "Bri", 15) (by simp)

/-- **C6.** On a mapping where every value is within `eps` of zero (the empty
mapping included), the function returns the empty transfer list. -/
theorem c6_small_balances_empty (bal : Dict)
    (h : ∀ p ∈ bal, -eps ≤ p.2 ∧ p.2 ≤ eps) : Settles bal [] := by
  refine ⟨1, ?_⟩
  have hd : debtorsOf bal = [] := by
    rw [debtorsOf]
    have hf : bal.filter (fun p => decide (p.2 < -eps)) = [] := by
      rw [List.filter_eq_nil_iff]
      intro p hp
      simpa using not_lt.mpr (h p hp).1
    rw [hf]
    rfl
  have hcond : ¬ cond (initState bal) := by
    simp [cond, initState, hd]
  show (loopSt 1 (initState bal)).1 = some []
  rw [loopSt_succ, if_neg hcond]
  rfl

/-- Witness for C6: a one-entry mapping at the tolerance boundary. -/
theorem c6_witness : Settles [("a", eps)] [] :=
  c6_small_balances_empty [("a", eps)]
    (by intro p hp; simp at hp; subst hp; exact ⟨by norm_num [eps], le_refl _⟩)

/-- Setting an index to a pair with the same first component preserves the
first-component list. -/
theorem map_fst_set_getD {α β : Type} {l : List (α × β)} {i : Nat} (v : β) (d : α × β) :
    (l.set i ((l.getD i d).1, v)).map Prod.fst = l.map Prod.fst := by
  induction l generalizing i with
  | nil => simp
  | cons a t ih =>
    cases i with
    | zero => simp
    | succ i =>
      have h' := ih (i := i)
      simp only [List.getD, List.get?_eq_getElem?] at h' ⊢
      simp [h']

/-- Under unique keys, no name is both a debtor and a creditor. -/
theorem debtor_creditor_names_disjoint {bal : Dict} (hn : (keys bal).Nodup) {n : String}
    (hd : n ∈ (debtorsOf bal).map Prod.fst) (hc : n ∈ (creditorsOf bal).map Prod.fst) :
    False := by
  have hd' : n ∈ (bal.filter (fun p => decide (p.2 < -eps))).map Prod.fst :=
    ((stableSort_perm _ _).map Prod.fst).mem_iff.mp hd
  have hc' : n ∈ (bal.filter (fun p => decide (eps < p.2))).map Prod.fst :=
    ((stableSort_perm _ _).map Prod.fst).mem_iff.mp hc
  obtain ⟨p, hp, hp1⟩ := List.mem_map.mp hd'
  obtain ⟨q, hq, hq1⟩ := List.mem_map.mp hc'
  obtain ⟨hpb, hpv⟩ := List.mem_filter.mp hp
  obtain ⟨hqb, hqv⟩ := List.mem_filter.mp hq
  simp only [decide_eq_true_eq] at hpv hqv
  have hpe : dget bal n = p.2 := dget_of_mem_nodup hn (by rw [← hp1, Prod.mk.eta]; exact hpb)
  have hqe : dget bal n = q.2 := dget_of_mem_nodup hn (by rw [← hq1, Prod.mk.eta]; exact hqb)
  have : p.2 < q.2 := by
    calc p.2 < -eps := hpv
    _ < eps := by norm_num [eps]
    _ < q.2 := hqv
  rw [← hpe, ← hqe] at this
  exact lt_irrefl _ this

/-- **C10.** No emitted transfer directs a participant to pay themselves. -/
theorem c10_no_self_transfer (bal : Dict) (ts : List Transfer)
    (hn : (keys bal).Nodup) (h : Settles bal ts) :
    ∀ t ∈ ts, t.1 ≠ t.2.1 := by
  obtain ⟨n, hfuel⟩ := h
  have hreach := loop_reach
    (P := fun s => s.debtors.map Prod.fst = (debtorsOf bal).map Prod.fst ∧
      s.creditors.map Prod.fst = (creditorsOf bal).map Prod.fst ∧
      ∀ t ∈ s.transfers, t.1 ≠ t.2.1)
    (fun u hc hP => by
      obtain ⟨hP1, hP2, hP3⟩ := hP
      refine ⟨?_, ?_, ?_⟩
      · show (if -eps ≤ dAfter u then u.debtors
            else u.debtors.set u.i ((curD u).1, dAfter u)).map Prod.fst = _
        simp only [curD]
        split_ifs
        · exact hP1
        · rw [map_fst_set_getD]
          exact hP1
      · show (if cAfter u ≤ eps then u.creditors
            else u.creditors.set u.j ((curC u).1, cAfter u)).map Prod.fst = _
        simp only [curC]
        split_ifs
        · exact hP2
        · rw [map_fst_set_getD]
          exact hP2
      · intro t ht
        have ht' : t ∈ tAfter u := ht
        rw [tAfter] at ht'
        by_cases hp : 0 < payOf u
        · rw [if_pos hp] at ht'
          rcases List.mem_append.mp ht' with h1 | h2
          · exact hP3 t h1
          · simp only [List.mem_singleton] at h2
            subst h2
            intro heq
            have heq' : (curD u).1 = (curC u).1 := heq
            refine debtor_creditor_names_disjoint hn (n := (curD u).1) ?_ ?_
            · rw [← hP1, curD]
              exact List.mem_map_of_mem Prod.fst (getD_mem hc.1 _)
            · rw [heq', ← hP2, curC]
              exact List.mem_map_of_mem Prod.fst (getD_mem hc.2 _)
        · rw [if_neg hp] at ht'
          exact hP3 t ht')
    n (initState bal) ts ⟨rfl, rfl, by intro t ht; simp [initState] at ht⟩ hfuel
  obtain ⟨u, ⟨-, -, hP3⟩, -, hts⟩ := hreach
  exact hts ▸ hP3

/-- Witness for C10 at the repository's own test input. -/
theorem c10_witness : ("Alex" : String) ≠ "Bri" :=
  c10_no_self_transfer [("Alex", -15), ("Bri", 15), ("Casey", 0)] [("Alex", "Bri", 15)]
    (by with_unfolding_all decide) ⟨2, by with_unfolding_all decide⟩
    ("Alex", "Bri", 15) (by simp)

/-! ### Bookkeeping lemmas for the settlement invariant -/

theorem eps_pos : (0 : ℚ) < eps := by norm_num [eps]

theorem paidBy_append_single (ts : List Transfer) (a b : String) (v : ℚ) (n : String) :
    paidBy (ts ++ [(a, b, v)]) n = paidBy ts n + (if a = n then v else 0) := by
  unfold paidBy
  rw [List.filter_append, List.map_append, List.sum_append]
  by_cases h : a = n
  · simp [h]
  · simp [h, beq_eq_false_iff_ne.mpr h]

theorem recvBy_append_single (ts : List Transfer) (a b : String) (v : ℚ) (n : String) :
    recvBy (ts ++ [(a, b, v)]) n = recvBy ts n + (if b = n then v else 0) := by
  unfold recvBy
  rw [List.filter_append, List.map_append, List.sum_append]
  by_cases h : b = n
  · simp [h]
  · simp [h, beq_eq_false_iff_ne.mpr h]

theorem paidBy_nonneg (ts : List Transfer) (n : String)
    (h : ∀ t ∈ ts, 0 < t.2.2) : 0 ≤ paidBy ts n := by
  unfold paidBy
  apply List.sum_nonneg
  intro x hx
  obtain ⟨t, ht, rfl⟩ := List.mem_map.mp hx
  exact le_of_lt (h t (List.mem_filter.mp ht).1)

theorem recvBy_nonneg (ts : List Transfer) (n : String)
    (h : ∀ t ∈ ts, 0 < t.2.2) : 0 ≤ recvBy ts n := by
  unfold recvBy
  apply List.sum_nonneg
  intro x hx
  obtain ⟨t, ht, rfl⟩ := List.mem_map.mp hx
  exact le_of_lt (h t (List.mem_filter.mp ht).1)

theorem paidBy_eq_zero (ts : List Transfer) (n : String)
    (h : ∀ t ∈ ts, t.1 ≠ n) : paidBy ts n = 0 := by
  unfold paidBy
  have hf : ts.filter (fun t => t.1 == n) = [] :=
    List.filter_eq_nil_iff.mpr (fun t ht => by simp [h t ht])
  rw [hf]
  rfl

theorem recvBy_eq_zero (ts : List Transfer) (n : String)
    (h : ∀ t ∈ ts, t.2.1 ≠ n) : recvBy ts n = 0 := by
  unfold recvBy
  have hf : ts.filter (fun t => t.2.1 == n) = [] :=
    List.filter_eq_nil_iff.mpr (fun t ht => by simp [h t ht])
  rw [hf]
  rfl

/-- With distinct first components, elements before and from a cursor have
different first components. -/
theorem fst_ne_of_take_drop {α β : Type} {l : List (α × β)}
    (hn : (l.map Prod.fst).Nodup) {i : Nat} {p q : α × β}
    (hp : p ∈ l.take i) (hq : q ∈ l.drop i) : p.1 ≠ q.1 := by
  have hsplit : l.take i ++ l.drop i = l := List.take_append_drop i l
  rw [← hsplit, List.map_append] at hn
  have hd := (List.nodup_append.mp hn).2.2
  intro he
  exact hd (List.mem_map_of_mem Prod.fst hp) (he ▸ List.mem_map_of_mem Prod.fst hq)

/-- With distinct first components, the element at the cursor differs in
first component from every element strictly beyond it. -/
theorem fst_getD_ne_of_mem_drop {α β : Type} {l : List (α × β)}
    (hn : (l.map Prod.fst).Nodup) {i : Nat} (h : i < l.length) (d : α × β)
    {q : α × β} (hq : q ∈ l.drop (i + 1)) : (l.getD i d).1 ≠ q.1 := by
  have hsub : (l.drop i).Sublist l := List.drop_sublist i l
  have hnd : ((l.drop i).map Prod.fst).Nodup := hn.sublist (hsub.map Prod.fst)
  rw [drop_eq_getD_cons h d, List.map_cons, List.nodup_cons] at hnd
  intro he
  exact hnd.1 (he ▸ List.mem_map_of_mem Prod.fst hq)

theorem debtorsOf_names_nodup {bal : Dict} (hn : (keys bal).Nodup) :
    ((debtorsOf bal).map Prod.fst).Nodup := by
  have h1 : ((bal.filter (fun p => decide (p.2 < -eps))).map Prod.fst).Nodup :=
    hn.sublist ((List.filter_sublist bal).map Prod.fst)
  exact ((stableSort_perm _ _).map Prod.fst).nodup_iff.mpr h1

theorem creditorsOf_names_nodup {bal : Dict} (hn : (keys bal).Nodup) :
    ((creditorsOf bal).map Prod.fst).Nodup := by
  have h1 : ((bal.filter (fun p => decide (eps < p.2))).map Prod.fst).Nodup :=
    hn.sublist ((List.filter_sublist bal).map Prod.fst)
  exact ((stableSort_perm _ _).map Prod.fst).nodup_iff.mpr h1

theorem mem_debtorsOf {bal : Dict} {p : String × ℚ} (hp : p ∈ debtorsOf bal) :
    p ∈ bal ∧ p.2 < -eps := by
  have hp' : p ∈ bal.filter (fun p => decide (p.2 < -eps)) :=
    (stableSort_perm _ _).mem_iff.mp hp
  obtain ⟨h1, h2⟩ := List.mem_filter.mp hp'
  exact ⟨h1, by simpa using h2⟩

theorem mem_creditorsOf {bal : Dict} {p : String × ℚ} (hp : p ∈ creditorsOf bal) :
    p ∈ bal ∧ eps < p.2 := by
  have hp' : p ∈ bal.filter (fun p => decide (eps < p.2)) :=
    (stableSort_perm _ _).mem_iff.mp hp
  obtain ⟨h1, h2⟩ := List.mem_filter.mp hp'
  exact ⟨h1, by simpa using h2⟩

/-- If a name is in neither partition, its balance lies within the tolerance. -/
theorem small_of_not_mem_partitions {bal : Dict} {n : String} (hk : n ∈ keys bal)
    (hd : n ∉ (debtorsOf bal).map Prod.fst) (hc : n ∉ (creditorsOf bal).map Prod.fst) :
    -eps ≤ dget bal n ∧ dget bal n ≤ eps := by
  have hm : (n, dget bal n) ∈ bal := mem_of_mem_keys hk
  constructor
  · by_contra h
    push_neg at h
    apply hd
    refine ((stableSort_perm _ _).map Prod.fst).mem_iff.mpr ?_
    exact List.mem_map_of_mem Prod.fst (List.mem_filter.mpr ⟨hm, by simpa using h⟩)
  · by_contra h
    push_neg at h
    apply hc
    refine ((stableSort_perm _ _).map Prod.fst).mem_iff.mpr ?_
    exact List.mem_map_of_mem Prod.fst (List.mem_filter.mpr ⟨hm, by simpa using h⟩)

/-- Splitting the value total over the three-way partition of a cent-valued
dict: the entries excluded from both lists are exactly zero. -/
theorem sum_filter_split (bal : Dict) (hcent : ∀ p ∈ bal, Cent p.2) :
    ((bal.filter (fun p => decide (p.2 < -eps))).map Prod.snd).sum +
      ((bal.filter (fun p => decide (eps < p.2))).map Prod.snd).sum
    = (bal.map Prod.snd).sum := by
  induction bal with
  | nil => simp
  | cons p t ih =>
    have iht := ih (fun q hq => hcent q (List.mem_cons_of_mem _ hq))
    have hee : -eps < eps := by norm_num [eps]
    by_cases h1 : p.2 < -eps
    · have h2 : ¬ eps < p.2 := by intro h; linarith
      rw [List.filter_cons_of_pos (by simpa using h1),
        List.filter_cons_of_neg (by simpa using h2)]
      simp only [List.map_cons, List.sum_cons]
      linarith
    · by_cases h2 : eps < p.2
      · rw [List.filter_cons_of_neg (by simpa using h1),
          List.filter_cons_of_pos (by simpa using h2)]
        simp only [List.map_cons, List.sum_cons]
        linarith
      · have hz : p.2 = 0 :=
          cent_eq_zero_of_small (hcent p (List.mem_cons_self _ _)) (not_lt.mp h1)
            (not_lt.mp h2)
        rw [List.filter_cons_of_neg (by simpa using h1),
          List.filter_cons_of_neg (by simpa using h2)]
        simp only [List.map_cons, List.sum_cons, hz]
        linarith

/-- A list of values all above the tolerance with zero sum is empty. -/
theorem eq_nil_of_pos_sum_zero {l : List (String × ℚ)} (hpos : ∀ p ∈ l, eps < p.2)
    (hs : (l.map Prod.snd).sum = 0) : l = [] := by
  cases l with
  | nil => rfl
  | cons p t =>
    exfalso
    have h1 : eps < p.2 := hpos p (List.mem_cons_self _ _)
    have h2 : 0 ≤ (t.map Prod.snd).sum := by
      apply List.sum_nonneg
      intro x hx
      obtain ⟨q, hq, rfl⟩ := List.mem_map.mp hx
      have := hpos q (List.mem_cons_of_mem _ hq)
      linarith [eps_pos]
    simp only [List.map_cons, List.sum_cons] at hs
    linarith [eps_pos]

theorem list_sum_nonpos {l : List ℚ} (h : ∀ x ∈ l, x ≤ 0) : l.sum ≤ 0 := by
  induction l with
  | nil => simp
  | cons a t ih =>
    simp only [List.sum_cons]
    have h1 := h a (List.mem_cons_self _ _)
    have h2 := ih (fun x hx => h x (List.mem_cons_of_mem _ hx))
    linarith

/-- A list of values all below minus the tolerance with zero sum is empty. -/
theorem eq_nil_of_neg_sum_zero {l : List (String × ℚ)} (hneg : ∀ p ∈ l, p.2 < -eps)
    (hs : (l.map Prod.snd).sum = 0) : l = [] := by
  cases l with
  | nil => rfl
  | cons p t =>
    exfalso
    have h1 : p.2 < -eps := hneg p (List.mem_cons_self _ _)
    have h2 : (t.map Prod.snd).sum ≤ 0 := by
      apply list_sum_nonpos
      intro x hx
      obtain ⟨q, hq, rfl⟩ := List.mem_map.mp hx
      have := hneg q (List.mem_cons_of_mem _ hq)
      linarith [eps_pos]
    simp only [List.map_cons, List.sum_cons] at hs
    linarith [eps_pos]

/-- One loop iteration preserves the settlement invariant on a cent-valued
input with unique keys. -/
theorem invC_step {bal : Dict} (hn : (keys bal).Nodup)
    {s : LoopState} (hc : cond s) (hI : InvC bal s) : InvC bal (step s) := by
  obtain ⟨hF1, hF2, hF3, hF4, hF5, hF6, hF7, hF8⟩ := hI
  have hiD : s.i < s.debtors.length := hc.1
  have hjC : s.j < s.creditors.length := hc.2
  have hdD : s.debtors.drop s.i = curD s :: s.debtors.drop (s.i + 1) :=
    drop_eq_getD_cons hiD ("", 0)
  have hcD : s.creditors.drop s.j = curC s :: s.creditors.drop (s.j + 1) :=
    drop_eq_getD_cons hjC ("", 0)
  have hdmem : curD s ∈ s.debtors.drop s.i := by
    rw [hdD]; exact List.mem_cons_self _ _
  have hcmem : curC s ∈ s.creditors.drop s.j := by
    rw [hcD]; exact List.mem_cons_self _ _
  obtain ⟨hd_eq, hd_neg, hd_cent⟩ := hF4 (curD s) hdmem
  obtain ⟨hc_eq, hc_pos, hc_cent⟩ := hF6 (curC s) hcmem
  have hmin_cent : Cent (min (-(curD s).2) (curC s).2) := hd_cent.neg.min hc_cent
  have hpay_eq : payOf s = min (-(curD s).2) (curC s).2 := by
    rw [payOf, hmin_cent.round2_id]
  have hpay_cent : Cent (payOf s) := hpay_eq ▸ hmin_cent
  have hd_ge : 1 / 100 ≤ -(curD s).2 := cent_ge_of_eps_lt hd_cent.neg (by linarith)
  have hc_ge : 1 / 100 ≤ (curC s).2 := cent_ge_of_eps_lt hc_cent hc_pos
  have hpay_pos : 0 < payOf s := by
    rw [hpay_eq]
    exact lt_min_iff.mpr ⟨by linarith, by linarith⟩
  have hpay_le_d : payOf s ≤ -(curD s).2 := hpay_eq ▸ min_le_left _ _
  have hpay_le_c : payOf s ≤ (curC s).2 := hpay_eq ▸ min_le_right _ _
  have hda : dAfter s = (curD s).2 + payOf s := by rw [dAfter, if_pos hpay_pos]
  have hca : cAfter s = (curC s).2 - payOf s := by rw [cAfter, if_pos hpay_pos]
  have hts : tAfter s = s.transfers ++ [((curD s).1, (curC s).1, payOf s)] := by
    rw [tAfter, if_pos hpay_pos]
  have hda_cent : Cent (dAfter s) := by rw [hda]; exact hd_cent.add hpay_cent
  have hca_cent : Cent (cAfter s) := by rw [hca]; exact hc_cent.sub hpay_cent
  have hda_le : dAfter s ≤ 0 := by rw [hda]; linarith
  have hca_ge : 0 ≤ cAfter s := by rw [hca]; linarith
  have hndD : (s.debtors.map Prod.fst).Nodup := by
    rw [hF1]; exact debtorsOf_names_nodup hn
  have hndC : (s.creditors.map Prod.fst).Nodup := by
    rw [hF2]; exact creditorsOf_names_nodup hn
  have hpaid : ∀ n, paidBy (tAfter s) n
      = paidBy s.transfers n + (if (curD s).1 = n then payOf s else 0) := by
    intro n; rw [hts, paidBy_append_single]
  have hrecv : ∀ n, recvBy (tAfter s) n
      = recvBy s.transfers n + (if (curC s).1 = n then payOf s else 0) := by
    intro n; rw [hts, recvBy_append_single]
  have hdn_mem : (curD s).1 ∈ (debtorsOf bal).map Prod.fst := by
    rw [← hF1, curD]
    exact List.mem_map_of_mem Prod.fst (getD_mem hiD _)
  have hcn_mem : (curC s).1 ∈ (creditorsOf bal).map Prod.fst := by
    rw [← hF2, curC]
    exact List.mem_map_of_mem Prod.fst (getD_mem hjC _)
  have hdrop_sum : ((s.debtors.drop s.i).map Prod.snd).sum
      = (curD s).2 + ((s.debtors.drop (s.i + 1)).map Prod.snd).sum := by
    rw [hdD]; simp
  have hcrop_sum : ((s.creditors.drop s.j).map Prod.snd).sum
      = (curC s).2 + ((s.creditors.drop (s.j + 1)).map Prod.snd).sum := by
    rw [hcD]; simp
  -- the debtor half of the invariant after the step
  have hdeb : (step s).debtors.map Prod.fst = (debtorsOf bal).map Prod.fst ∧
      (∀ p ∈ (step s).debtors.take (step s).i,
        dget bal p.1 + paidBy (tAfter s) p.1 = 0) ∧
      (∀ p ∈ (step s).debtors.drop (step s).i,
        dget bal p.1 + paidBy (tAfter s) p.1 = p.2 ∧ p.2 < -eps ∧ Cent p.2) ∧
      (((step s).debtors.drop (step s).i).map Prod.snd).sum
        = ((s.debtors.drop s.i).map Prod.snd).sum + payOf s := by
    have hsettled_old : ∀ p ∈ s.debtors.take s.i,
        dget bal p.1 + paidBy (tAfter s) p.1 = 0 := by
      intro p hp
      have hne : (curD s).1 ≠ p.1 := (fst_ne_of_take_drop hndD hp hdmem).symm
      rw [hpaid, if_neg hne, add_zero]
      exact hF3 p hp
    have hactive_tail : ∀ p ∈ s.debtors.drop (s.i + 1),
        dget bal p.1 + paidBy (tAfter s) p.1 = p.2 ∧ p.2 < -eps ∧ Cent p.2 := by
      intro p hp
      have hne : (curD s).1 ≠ p.1 := fst_getD_ne_of_mem_drop hndD hiD ("", 0) hp
      have hmem : p ∈ s.debtors.drop s.i := by
        rw [hdD]; exact List.mem_cons_of_mem _ hp
      obtain ⟨he, hn1, hn2⟩ := hF4 p hmem
      refine ⟨?_, hn1, hn2⟩
      rw [hpaid, if_neg hne, add_zero]
      exact he
    have hcur_paid : dget bal (curD s).1 + paidBy (tAfter s) (curD s).1
        = (curD s).2 + payOf s := by
      rw [hpaid, if_pos rfl, ← add_assoc, hd_eq]
    by_cases hD : -eps ≤ dAfter s
    · have e1 : (step s).debtors = s.debtors := by
        show (if -eps ≤ dAfter s then s.debtors
          else s.debtors.set s.i ((curD s).1, dAfter s)) = s.debtors
        rw [if_pos hD]
      have ei : (step s).i = s.i + 1 := by
        show (if -eps ≤ dAfter s then s.i + 1 else s.i) = s.i + 1
        rw [if_pos hD]
      have hda0 : dAfter s = 0 :=
        cent_eq_zero_of_small hda_cent hD (le_trans hda_le (le_of_lt eps_pos))
      refine ⟨e1 ▸ hF1, ?_, ?_, ?_⟩
      · rw [e1, ei, take_succ_getD hiD ("", 0)]
        intro p hp
        rcases List.mem_append.mp hp with hp' | hp'
        · exact hsettled_old p hp'
        · simp only [List.mem_singleton] at hp'
          subst hp'
          show dget bal (curD s).1 + paidBy (tAfter s) (curD s).1 = 0
          rw [hcur_paid, ← hda, hda0]
      · rw [e1, ei]
        exact hactive_tail
      · rw [e1, ei, hdrop_sum]
        have : (curD s).2 = -payOf s := by rw [hda] at hda0; linarith
        linarith
    · have e1 : (step s).debtors = s.debtors.set s.i ((curD s).1, dAfter s) := by
        show (if -eps ≤ dAfter s then s.debtors
          else s.debtors.set s.i ((curD s).1, dAfter s)) = _
        rw [if_neg hD]
      have ei : (step s).i = s.i := by
        show (if -eps ≤ dAfter s then s.i + 1 else s.i) = s.i
        rw [if_neg hD]
      have hda_lt : dAfter s < -eps := not_le.mp hD
      have hname : (s.debtors.map Prod.fst).Nodup → True := fun _ => trivial
      refine ⟨?_, ?_, ?_, ?_⟩
      · rw [e1]
        have := map_fst_set_getD (l := s.debtors) (i := s.i) (dAfter s) (("", 0))
        rw [curD]
        rw [this]
        exact hF1
      · rw [e1, ei, take_set_eq]
        exact hsettled_old
      · rw [e1, ei, drop_set_eq_cons hiD]
        intro p hp
        rcases List.mem_cons.mp hp with hp' | hp'
        · subst hp'
          exact ⟨hcur_paid.trans hda.symm, hda_lt, hda_cent⟩
        · exact hactive_tail p hp'
      · rw [e1, ei, drop_set_eq_cons hiD]
        simp only [List.map_cons, List.sum_cons]
        rw [hdrop_sum, hda]
        ring
  -- the creditor half of the invariant after the step
  have hcred : (step s).creditors.map Prod.fst = (creditorsOf bal).map Prod.fst ∧
      (∀ p ∈ (step s).creditors.take (step s).j,
        dget bal p.1 - recvBy (tAfter s) p.1 = 0) ∧
      (∀ p ∈ (step s).creditors.drop (step s).j,
        dget bal p.1 - recvBy (tAfter s) p.1 = p.2 ∧ eps < p.2 ∧ Cent p.2) ∧
      (((step s).creditors.drop (step s).j).map Prod.snd).sum
        = ((s.creditors.drop s.j).map Prod.snd).sum - payOf s := by
    have hsettled_old : ∀ p ∈ s.creditors.take s.j,
        dget bal p.1 - recvBy (tAfter s) p.1 = 0 := by
      intro p hp
      have hne : (curC s).1 ≠ p.1 := (fst_ne_of_take_drop hndC hp hcmem).symm
      rw [hrecv, if_neg hne, add_zero]
      exact hF5 p hp
    have hactive_tail : ∀ p ∈ s.creditors.drop (s.j + 1),
        dget bal p.1 - recvBy (tAfter s) p.1 = p.2 ∧ eps < p.2 ∧ Cent p.2 := by
      intro p hp
      have hne : (curC s).1 ≠ p.1 := fst_getD_ne_of_mem_drop hndC hjC ("", 0) hp
      have hmem : p ∈ s.creditors.drop s.j := by
        rw [hcD]; exact List.mem_cons_of_mem _ hp
      obtain ⟨he, hn1, hn2⟩ := hF6 p hmem
      refine ⟨?_, hn1, hn2⟩
      rw [hrecv, if_neg hne, add_zero]
      exact he
    have hcur_recv : dget bal (curC s).1 - recvBy (tAfter s) (curC s).1
        = (curC s).2 - payOf s := by
      rw [hrecv, if_pos rfl, ← sub_sub, hc_eq]
    by_cases hC : cAfter s ≤ eps
    · have e1 : (step s).creditors = s.creditors := by
        show (if cAfter s ≤ eps then s.creditors
          else s.creditors.set s.j ((curC s).1, cAfter s)) = s.creditors
        rw [if_pos hC]
      have ej : (step s).j = s.j + 1 := by
        show (if cAfter s ≤ eps then s.j + 1 else s.j) = s.j + 1
        rw [if_pos hC]
      have hca0 : cAfter s = 0 :=
        cent_eq_zero_of_small hca_cent (le_trans (by linarith [eps_pos] : -eps ≤ (0:ℚ)) hca_ge) hC
      refine ⟨e1 ▸ hF2, ?_, ?_, ?_⟩
      · rw [e1, ej, take_succ_getD hjC ("", 0)]
        intro p hp
        rcases List.mem_append.mp hp with hp' | hp'
        · exact hsettled_old p hp'
        · simp only [List.mem_singleton] at hp'
          subst hp'
          show dget bal (curC s).1 - recvBy (tAfter s) (curC s).1 = 0
          rw [hcur_recv, ← hca, hca0]
      · rw [e1, ej]
        exact hactive_tail
      · rw [e1, ej, hcrop_sum]
        have : (curC s).2 = payOf s := by rw [hca] at hca0; linarith
        linarith
    · have e1 : (step s).creditors = s.creditors.set s.j ((curC s).1, cAfter s) := by
        show (if cAfter s ≤ eps then s.creditors
          else s.creditors.set s.j ((curC s).1, cAfter s)) = _
        rw [if_neg hC]
      have ej : (step s).j = s.j := by
        show (if cAfter s ≤ eps then s.j + 1 else s.j) = s.j
        rw [if_neg hC]
      have hca_gt : eps < cAfter s := not_le.mp hC
      refine ⟨?_, ?_, ?_, ?_⟩
      · rw [e1]
        have := map_fst_set_getD (l := s.creditors) (i := s.j) (cAfter s) (("", 0))
        rw [curC]
        rw [this]
        exact hF2
      · rw [e1, ej, take_set_eq]
        exact hsettled_old
      · rw [e1, ej, drop_set_eq_cons hjC]
        intro p hp
        rcases List.mem_cons.mp hp with hp' | hp'
        · subst hp'
          exact ⟨hcur_recv.trans hca.symm, hca_gt, hca_cent⟩
        · exact hactive_tail p hp'
      · rw [e1, ej, drop_set_eq_cons hjC]
        simp only [List.map_cons, List.sum_cons]
        rw [hcrop_sum, hca]
        ring
  obtain ⟨hd1, hd2, hd3, hd4⟩ := hdeb
  obtain ⟨hc1, hc2, hc3, hc4⟩ := hcred
  refine ⟨hd1, hc1, hd2, hd3, hc2, hc3, ?_, ?_⟩
  · show ∀ t ∈ tAfter s, _
    intro t ht
    rw [hts] at ht
    rcases List.mem_append.mp ht with ht' | ht'
    · exact hF7 t ht'
    · simp only [List.mem_singleton] at ht'
      subst ht'
      exact ⟨hdn_mem, hcn_mem, hpay_pos⟩
  · rw [hd4, hc4]
    linarith

/-- The settlement invariant holds before the first iteration. -/
theorem invC_init {bal : Dict} (hn : (keys bal).Nodup)
    (hcent : ∀ p ∈ bal, Cent p.2) : InvC bal (initState bal) := by
  refine ⟨rfl, rfl, ?_, ?_, ?_, ?_, ?_, ?_⟩
  · intro p hp
    simp [initState] at hp
  · intro p hp
    have hp' : p ∈ debtorsOf bal := by simpa [initState] using hp
    obtain ⟨hmem, hneg⟩ := mem_debtorsOf hp'
    have hdg : dget bal p.1 = p.2 :=
      dget_of_mem_nodup hn (by rw [Prod.mk.eta]; exact hmem)
    refine ⟨?_, hneg, hcent p hmem⟩
    show dget bal p.1 + paidBy ([] : List Transfer) p.1 = p.2
    rw [hdg]
    show p.2 + 0 = p.2
    ring
  · intro p hp
    simp [initState] at hp
  · intro p hp
    have hp' : p ∈ creditorsOf bal := by simpa [initState] using hp
    obtain ⟨hmem, hpos⟩ := mem_creditorsOf hp'
    have hdg : dget bal p.1 = p.2 :=
      dget_of_mem_nodup hn (by rw [Prod.mk.eta]; exact hmem)
    refine ⟨?_, hpos, hcent p hmem⟩
    show dget bal p.1 - recvBy ([] : List Transfer) p.1 = p.2
    rw [hdg]
    show p.2 - 0 = p.2
    ring
  · intro t ht
    simp [initState] at ht
  · show (((debtorsOf bal).drop 0).map Prod.snd).sum
        + (((creditorsOf bal).drop 0).map Prod.snd).sum = (bal.map Prod.snd).sum
    simp only [List.drop_zero]
    have h1 : ((debtorsOf bal).map Prod.snd).sum
        = ((bal.filter (fun p => decide (p.2 < -eps))).map Prod.snd).sum :=
      ((stableSort_perm _ _).map Prod.snd).sum_eq
    have h2 : ((creditorsOf bal).map Prod.snd).sum
        = ((bal.filter (fun p => decide (eps < p.2))).map Prod.snd).sum :=
      ((stableSort_perm _ _).map Prod.snd).sum_eq
    rw [h1, h2, sum_filter_split bal hcent]

/-- Whatever transfer list the loop returns on a cent-valued input is the
transfer list of an invariant-satisfying state with a false guard. -/
theorem invC_final {bal : Dict} {ts : List Transfer} (hn : (keys bal).Nodup)
    (hcent : ∀ p ∈ bal, Cent p.2) (h : Settles bal ts) :
    ∃ u, InvC bal u ∧ ¬ cond u ∧ u.transfers = ts := by
  obtain ⟨n, hrun⟩ := h
  exact loop_reach (fun u hc hI => invC_step hn hc hI) n (initState bal) ts
    (invC_init hn hcent) hrun

/-- **C3 (amended).** On a mapping whose values are exact multiples of
`0.01`, every name pays at most the magnitude of its negative balance and
receives at most its positive balance. -/
theorem c3_conservation_cents (bal : Dict) (ts : List Transfer)
    (hn : (keys bal).Nodup) (hround : ∀ p ∈ bal, round2 p.2 = p.2)
    (h : Settles bal ts) (n : String) :
    paidBy ts n ≤ max (-(dget bal n)) 0 ∧ recvBy ts n ≤ max (dget bal n) 0 := by
  have hcent : ∀ p ∈ bal, Cent p.2 := fun p hp => cent_of_round2_id (hround p hp)
  obtain ⟨u, hI, -, rfl⟩ := invC_final hn hcent h
  obtain ⟨hF1, hF2, hF3, hF4, hF5, hF6, hF7, hF8⟩ := hI
  have hpos : ∀ t ∈ u.transfers, 0 < t.2.2 := fun t ht => (hF7 t ht).2.2
  have hpnn : 0 ≤ paidBy u.transfers n := paidBy_nonneg _ _ hpos
  have hrnn : 0 ≤ recvBy u.transfers n := recvBy_nonneg _ _ hpos
  constructor
  · by_cases hd : n ∈ u.debtors.map Prod.fst
    · obtain ⟨p, hpmem, hp1⟩ := List.mem_map.mp hd
      have hp' : p ∈ u.debtors.take u.i ++ u.debtors.drop u.i := by
        rw [List.take_append_drop]
        exact hpmem
      rcases List.mem_append.mp hp' with hpt | hpd
      · have heq := hF3 p hpt
        rw [hp1] at heq
        have hpe : paidBy u.transfers n = -(dget bal n) := by linarith
        rw [hpe]
        exact le_max_left _ _
      · obtain ⟨heq, hneg, -⟩ := hF4 p hpd
        rw [hp1] at heq
        have hle : paidBy u.transfers n ≤ -(dget bal n) := by
          have he := eps_pos
          linarith
        exact le_trans hle (le_max_left _ _)
    · have hz : paidBy u.transfers n = 0 := by
        apply paidBy_eq_zero
        intro t ht he
        apply hd
        rw [hF1, ← he]
        exact (hF7 t ht).1
      rw [hz]
      exact le_max_right _ _
  · by_cases hcr : n ∈ u.creditors.map Prod.fst
    · obtain ⟨p, hpmem, hp1⟩ := List.mem_map.mp hcr
      have hp' : p ∈ u.creditors.take u.j ++ u.creditors.drop u.j := by
        rw [List.take_append_drop]
        exact hpmem
      rcases List.mem_append.mp hp' with hpt | hpd
      · have heq := hF5 p hpt
        rw [hp1] at heq
        have hre : recvBy u.transfers n = dget bal n := by linarith
        rw [hre]
        exact le_max_left _ _
      · obtain ⟨heq, hposv, -⟩ := hF6 p hpd
        rw [hp1] at heq
        have hle : recvBy u.transfers n ≤ dget bal n := by
          have he := eps_pos
          linarith
        exact le_trans hle (le_max_left _ _)
    · have hz : recvBy u.transfers n = 0 := by
        apply recvBy_eq_zero
        intro t ht he
        apply hcr
        rw [hF2, ← he]
        exact (hF7 t ht).2.1
      rw [hz]
      exact le_max_right _ _

/-- Witness for the amended C3 at the repository's own test input. -/
theorem c3_witness :
    paidBy [("Alex", "Bri", 15)] "Alex" ≤
      max (-(dget [("Alex", -15), ("Bri", 15), ("Casey", 0)] "Alex")) 0 ∧
    recvBy [("Alex", "Bri", 15)] "Alex" ≤
      max (dget [("Alex", -15), ("Bri", 15), ("Casey", 0)] "Alex") 0 :=
  c3_conservation_cents [("Alex", -15), ("Bri", 15), ("Casey", 0)]
    [("Alex", "Bri", 15)] (by with_unfolding_all decide)
    (by with_unfolding_all decide) ⟨2, by with_unfolding_all decide⟩ "Alex"

/-- **C1 (amended).** On a mapping with distinct keys whose values are exact
multiples of `0.01` and sum to zero, applying all emitted transfers leaves
every participant with residual exactly zero. -/
theorem c1_full_settlement_cents (bal : Dict) (ts : List Transfer)
    (hn : (keys bal).Nodup) (hround : ∀ p ∈ bal, round2 p.2 = p.2)
    (hsum : (bal.map Prod.snd).sum = 0) (h : Settles bal ts) :
    ∀ n ∈ keys bal, dget bal n + paidBy ts n - recvBy ts n = 0 := by
  have hcent : ∀ p ∈ bal, Cent p.2 := fun p hp => cent_of_round2_id (hround p hp)
  obtain ⟨u, hI, hnc, rfl⟩ := invC_final hn hcent h
  obtain ⟨hF1, hF2, hF3, hF4, hF5, hF6, hF7, hF8⟩ := hI
  have hboth : u.debtors.drop u.i = [] ∧ u.creditors.drop u.j = [] := by
    rw [hsum] at hF8
    rcases not_and_or.mp hnc with h1 | h1
    · have hdd : u.debtors.drop u.i = [] := List.drop_eq_nil_of_le (not_lt.mp h1)
      refine ⟨hdd, ?_⟩
      rw [hdd] at hF8
      simp only [List.map_nil, List.sum_nil, zero_add] at hF8
      exact eq_nil_of_pos_sum_zero (fun p hp => (hF6 p hp).2.1) hF8
    · have hcd : u.creditors.drop u.j = [] := List.drop_eq_nil_of_le (not_lt.mp h1)
      refine ⟨?_, hcd⟩
      rw [hcd] at hF8
      simp only [List.map_nil, List.sum_nil, add_zero] at hF8
      exact eq_nil_of_neg_sum_zero (fun p hp => (hF4 p hp).2.1) hF8
  obtain ⟨hdd, hcd⟩ := hboth
  have hile : u.debtors.length ≤ u.i := by
    by_contra hlt
    push_neg at hlt
    rw [drop_eq_getD_cons hlt (("", 0))] at hdd
    exact List.cons_ne_nil _ _ hdd
  have hjle : u.creditors.length ≤ u.j := by
    by_contra hlt
    push_neg at hlt
    rw [drop_eq_getD_cons hlt (("", 0))] at hcd
    exact List.cons_ne_nil _ _ hcd
  have htakeD : u.debtors.take u.i = u.debtors := List.take_of_length_le hile
  have htakeC : u.creditors.take u.j = u.creditors := List.take_of_length_le hjle
  intro n hk
  by_cases hd : n ∈ u.debtors.map Prod.fst
  · obtain ⟨p, hpmem, hp1⟩ := List.mem_map.mp hd
    have hpt : p ∈ u.debtors.take u.i := by rw [htakeD]; exact hpmem
    have heq := hF3 p hpt
    rw [hp1] at heq
    have hdn0 : n ∈ (debtorsOf bal).map Prod.fst := hF1 ▸ hd
    have hrz : recvBy u.transfers n = 0 :=
      recvBy_eq_zero _ _ (fun t ht he =>
        debtor_creditor_names_disjoint hn hdn0 (he ▸ (hF7 t ht).2.1))
    linarith
  · by_cases hcr : n ∈ u.creditors.map Prod.fst
    · obtain ⟨p, hpmem, hp1⟩ := List.mem_map.mp hcr
      have hpt : p ∈ u.creditors.take u.j := by rw [htakeC]; exact hpmem
      have heq := hF5 p hpt
      rw [hp1] at heq
      have hcn0 : n ∈ (creditorsOf bal).map Prod.fst := hF2 ▸ hcr
      have hpz : paidBy u.transfers n = 0 :=
        paidBy_eq_zero _ _ (fun t ht he =>
          debtor_creditor_names_disjoint hn (he ▸ (hF7 t ht).1) hcn0)
      linarith
    · have hd0 : n ∉ (debtorsOf bal).map Prod.fst := by
        rw [← hF1]; exact hd
      have hc0 : n ∉ (creditorsOf bal).map Prod.fst := by
        rw [← hF2]; exact hcr
      obtain ⟨hge, hle⟩ := small_of_not_mem_partitions hk hd0 hc0
      have hcent_n : Cent (dget bal n) := hcent _ (mem_of_mem_keys hk)
      have hz : dget bal n = 0 := cent_eq_zero_of_small hcent_n hge hle
      have hpz : paidBy u.transfers n = 0 :=
        paidBy_eq_zero _ _ (fun t ht he => hd0 (he ▸ (hF7 t ht).1))
      have hrz : recvBy u.transfers n = 0 :=
        recvBy_eq_zero _ _ (fun t ht he => hc0 (he ▸ (hF7 t ht).2.1))
      rw [hz, hpz, hrz]
      ring

/-- Witness for the amended C1 at the repository's own test input. -/
theorem c1_witness :
    dget [("Alex", -15), ("Bri", 15), ("Casey", 0)] "Alex"
      + paidBy [("Alex", "Bri", 15)] "Alex" - recvBy [("Alex", "Bri", 15)] "Alex" = 0 :=
  c1_full_settlement_cents [("Alex", -15), ("Bri", 15), ("Casey", 0)]
    [("Alex", "Bri", 15)] (by with_unfolding_all decide)
    (by with_unfolding_all decide) (by with_unfolding_all decide)
    ⟨2, by with_unfolding_all decide⟩ "Alex" (by simp [keys])

/-- **C3 is false as stated**: on `{d: -0.006, c: 0.006}` the function returns
a single transfer of `0.01`, so debtor `d` pays more than the `0.006`
magnitude of their original balance. -/
theorem c3_counterexample :
    Settles [("d", -(3/500)), ("c", 3/500)] [("d", "c", 1/100)] ∧
    -(dget [("d", -(3/500)), ("c", 3/500)] "d") <
      paidBy [("d", "c", 1/100)] "d" :=
  ⟨⟨2, by with_unfolding_all decide⟩, by with_unfolding_all decide⟩

/-- **C1 is false as stated**: `{d: -0.006, c: 0.006}` sums to zero exactly,
yet after applying the returned transfer `(d, c, 0.01)` debtor `d` is left
with residual `0.004`, far beyond the `1e-9` tolerance. -/
theorem c1_counterexample :
    (([("d", -(3/500)), ("c", 3/500)] : Dict).map Prod.snd).sum = 0 ∧
    Settles [("d", -(3/500)), ("c", 3/500)] [("d", "c", 1/100)] ∧
    eps < dget [("d", -(3/500)), ("c", 3/500)] "d" +
      paidBy [("d", "c", 1/100)] "d" - recvBy [("d", "c", 1/100)] "d" :=
  ⟨by with_unfolding_all decide, ⟨2, by with_unfolding_all decide⟩,
    by with_unfolding_all decide⟩

/-- When `pay` is not positive and neither remainder is within tolerance,
one iteration leaves the loop state unchanged. -/
theorem step_eq_self {s : LoopState} (hiD : s.i < s.debtors.length)
    (hjC : s.j < s.creditors.length) (hp : ¬ 0 < payOf s)
    (hd : (curD s).2 < -eps) (hcc : eps < (curC s).2) : step s = s := by
  have hda : dAfter s = (curD s).2 := by rw [dAfter, if_neg hp]
  have hca : cAfter s = (curC s).2 := by rw [cAfter, if_neg hp]
  have hts : tAfter s = s.transfers := by rw [tAfter, if_neg hp]
  have hD : ¬ (-eps ≤ dAfter s) := by rw [hda]; exact not_le.mpr hd
  have hC : ¬ (cAfter s ≤ eps) := by rw [hca]; exact not_le.mpr hcc
  have hsetd : s.debtors.set s.i ((curD s).1, dAfter s) = s.debtors := by
    rw [hda, Prod.mk.eta]
    exact set_getD_self hiD ("", 0)
  have hsetc : s.creditors.set s.j ((curC s).1, cAfter s) = s.creditors := by
    rw [hca, Prod.mk.eta]
    exact set_getD_self hjC ("", 0)
  show (⟨s.bal,
    if -eps ≤ dAfter s then s.debtors else s.debtors.set s.i ((curD s).1, dAfter s),
    if cAfter s ≤ eps then s.creditors else s.creditors.set s.j ((curC s).1, cAfter s),
    if -eps ≤ dAfter s then s.i + 1 else s.i,
    if cAfter s ≤ eps then s.j + 1 else s.j,
    tAfter s⟩ : LoopState) = s
  rw [if_neg hD, if_neg hC, if_neg hD, if_neg hC, hsetd, hsetc, hts]

/-- If an iteration emits a transfer but advances neither cursor, the next
iteration's `pay` rounds to zero at an unchanged remainder pair, so the loop
never returns from the successor state. -/
theorem diverge_of_no_advance {s : LoopState} (hc : cond s)
    (hD : ¬ (-eps ≤ dAfter s)) (hC : ¬ (cAfter s ≤ eps)) (hp : 0 < payOf s) :
    ∀ n, (loopSt n (step s)).1 = none := by
  have hiD : s.i < s.debtors.length := hc.1
  have hjC : s.j < s.creditors.length := hc.2
  have hda : dAfter s = (curD s).2 + payOf s := by rw [dAfter, if_pos hp]
  have hca : cAfter s = (curC s).2 - payOf s := by rw [cAfter, if_pos hp]
  have e1 : (step s).debtors = s.debtors.set s.i ((curD s).1, dAfter s) := by
    show (if -eps ≤ dAfter s then s.debtors
      else s.debtors.set s.i ((curD s).1, dAfter s)) = _
    rw [if_neg hD]
  have e2 : (step s).creditors = s.creditors.set s.j ((curC s).1, cAfter s) := by
    show (if cAfter s ≤ eps then s.creditors
      else s.creditors.set s.j ((curC s).1, cAfter s)) = _
    rw [if_neg hC]
  have ei : (step s).i = s.i := by
    show (if -eps ≤ dAfter s then s.i + 1 else s.i) = s.i
    rw [if_neg hD]
  have ej : (step s).j = s.j := by
    show (if cAfter s ≤ eps then s.j + 1 else s.j) = s.j
    rw [if_neg hC]
  have hlen1 : (step s).debtors.length = s.debtors.length := by
    rw [e1, List.length_set]
  have hlen2 : (step s).creditors.length = s.creditors.length := by
    rw [e2, List.length_set]
  have hc' : cond (step s) := by
    refine ⟨?_, ?_⟩
    · rw [hlen1, ei]; exact hiD
    · rw [hlen2, ej]; exact hjC
  have hcurD' : curD (step s) = ((curD s).1, dAfter s) := by
    rw [curD, e1, ei]
    exact getD_set_self hiD _ _
  have hcurC' : curC (step s) = ((curC s).1, cAfter s) := by
    rw [curC, e2, ej]
    exact getD_set_self hjC _ _
  have hd' : (curD (step s)).2 < -eps := by
    rw [hcurD']
    exact not_le.mp hD
  have hcc' : eps < (curC (step s)).2 := by
    rw [hcurC']
    exact not_le.mp hC
  -- the next pay rounds the residual gap, which lies in (0, 1/200], to zero
  have hgap : min (-(curD (step s)).2) ((curC (step s)).2)
      = min (-(curD s).2) ((curC s).2) - payOf s := by
    rw [hcurD', hcurC']
    show min (-(dAfter s)) (cAfter s) = _
    rw [hda, hca]
    rw [show -((curD s).2 + payOf s) = -(curD s).2 - payOf s by ring]
    exact min_sub_sub_right _ _ _
  have hpay_lt : payOf s < min (-(curD s).2) ((curC s).2) := by
    refine lt_min_iff.mpr ⟨?_, ?_⟩
    · have : dAfter s < -eps := not_le.mp hD
      rw [hda] at this
      have := eps_pos
      linarith
    · have : eps < cAfter s := not_le.mp hC
      rw [hca] at this
      have := eps_pos
      linarith
  have hgap_pos : 0 < min (-(curD s).2) ((curC s).2) - payOf s := by linarith
  have hgap_le : min (-(curD s).2) ((curC s).2) - payOf s ≤ 1 / 200 :=
    sub_round2_le (min (-(curD s).2) ((curC s).2))
  have hpay' : payOf (step s) = 0 := by
    rw [payOf, hgap]
    exact round2_eq_zero _ hgap_pos hgap_le
  have hfix : step (step s) = step s :=
    step_eq_self hc'.1 hc'.2 (by rw [hpay']; exact lt_irrefl 0) hd' hcc'
  exact loop_fix hc' hfix

/-- Counting induction for the transfer bound: on a run that returns, every
iteration emits at most one transfer and advances at least one cursor, and
the loop stops as soon as either cursor reaches the end of its list. -/
theorem c5_aux : ∀ (n : Nat) (s : LoopState) (ts : List Transfer),
    (∀ p ∈ s.debtors.drop s.i, p.2 < -eps) →
    (∀ p ∈ s.creditors.drop s.j, eps < p.2) →
    (loopSt n s).1 = some ts →
    ts.length ≤ s.transfers.length +
      ((s.debtors.length - s.i) + (s.creditors.length - s.j) - 1) := by
  intro n
  induction n with
  | zero =>
    intro s ts _ _ h
    simp [loopSt] at h
  | succ n ih =>
    intro s ts hdb hcb h
    rw [loopSt_succ] at h
    by_cases hc : cond s
    · rw [if_pos hc] at h
      have hiD : s.i < s.debtors.length := hc.1
      have hjC : s.j < s.creditors.length := hc.2
      have hdD : s.debtors.drop s.i = curD s :: s.debtors.drop (s.i + 1) :=
        drop_eq_getD_cons hiD ("", 0)
      have hcD : s.creditors.drop s.j = curC s :: s.creditors.drop (s.j + 1) :=
        drop_eq_getD_cons hjC ("", 0)
      have hdcur : (curD s).2 < -eps := hdb (curD s) (by
        rw [hdD]; exact List.mem_cons_self _ _)
      have hccur : eps < (curC s).2 := hcb (curC s) (by
        rw [hcD]; exact List.mem_cons_self _ _)
      by_cases hp : 0 < payOf s
      · by_cases hD : -eps ≤ dAfter s
        · -- debtor cursor advances
          by_cases hC : cAfter s ≤ eps
          · -- both advance
            have e1 : (step s).debtors = s.debtors := by
              show (if -eps ≤ dAfter s then s.debtors else _) = s.debtors
              rw [if_pos hD]
            have e2 : (step s).creditors = s.creditors := by
              show (if cAfter s ≤ eps then s.creditors else _) = s.creditors
              rw [if_pos hC]
            have ei : (step s).i = s.i + 1 := by
              show (if -eps ≤ dAfter s then s.i + 1 else s.i) = _
              rw [if_pos hD]
            have ej : (step s).j = s.j + 1 := by
              show (if cAfter s ≤ eps then s.j + 1 else s.j) = _
              rw [if_pos hC]
            have et : (step s).transfers.length = s.transfers.length + 1 := by
              show (tAfter s).length = _
              rw [tAfter, if_pos hp, List.length_append, List.length_singleton]
            have hdb' : ∀ p ∈ (step s).debtors.drop (step s).i, p.2 < -eps := by
              rw [e1, ei]
              intro p hpm
              exact hdb p (by rw [hdD]; exact List.mem_cons_of_mem _ hpm)
            have hcb' : ∀ p ∈ (step s).creditors.drop (step s).j, eps < p.2 := by
              rw [e2, ej]
              intro p hpm
              exact hcb p (by rw [hcD]; exact List.mem_cons_of_mem _ hpm)
            have hih := ih (step s) ts hdb' hcb' h
            rw [et, e1, e2, ei, ej] at hih
            omega
          · have e1 : (step s).debtors = s.debtors := by
              show (if -eps ≤ dAfter s then s.debtors else _) = s.debtors
              rw [if_pos hD]
            have e2 : (step s).creditors
                = s.creditors.set s.j ((curC s).1, cAfter s) := by
              show (if cAfter s ≤ eps then s.creditors else _) = _
              rw [if_neg hC]
            have ei : (step s).i = s.i + 1 := by
              show (if -eps ≤ dAfter s then s.i + 1 else s.i) = _
              rw [if_pos hD]
            have ej : (step s).j = s.j := by
              show (if cAfter s ≤ eps then s.j + 1 else s.j) = _
              rw [if_neg hC]
            have et : (step s).transfers.length = s.transfers.length + 1 := by
              show (tAfter s).length = _
              rw [tAfter, if_pos hp, List.length_append, List.length_singleton]
            have hdb' : ∀ p ∈ (step s).debtors.drop (step s).i, p.2 < -eps := by
              rw [e1, ei]
              intro p hpm
              exact hdb p (by rw [hdD]; exact List.mem_cons_of_mem _ hpm)
            have hcb' : ∀ p ∈ (step s).creditors.drop (step s).j, eps < p.2 := by
              rw [e2, ej, drop_set_eq_cons hjC]
              intro p hpm
              rcases List.mem_cons.mp hpm with rfl | hpm'
              · exact not_le.mp hC
              · exact hcb p (by rw [hcD]; exact List.mem_cons_of_mem _ hpm')
            have hih := ih (step s) ts hdb' hcb' h
            rw [et, e1, e2, ei, ej, List.length_set] at hih
            omega
        · by_cases hC : cAfter s ≤ eps
          · -- only the creditor cursor advances
            have e1 : (step s).debtors
                = s.debtors.set s.i ((curD s).1, dAfter s) := by
              show (if -eps ≤ dAfter s then s.debtors else _) = _
              rw [if_neg hD]
            have e2 : (step s).creditors = s.creditors := by
              show (if cAfter s ≤ eps then s.creditors else _) = s.creditors
              rw [if_pos hC]
            have ei : (step s).i = s.i := by
              show (if -eps ≤ dAfter s then s.i + 1 else s.i) = _
              rw [if_neg hD]
            have ej : (step s).j = s.j + 1 := by
              show (if cAfter s ≤ eps then s.j + 1 else s.j) = _
              rw [if_pos hC]
            have et : (step s).transfers.length = s.transfers.length + 1 := by
              show (tAfter s).length = _
              rw [tAfter, if_pos hp, List.length_append, List.length_singleton]
            have hdb' : ∀ p ∈ (step s).debtors.drop (step s).i, p.2 < -eps := by
              rw [e1, ei, drop_set_eq_cons hiD]
              intro p hpm
              rcases List.mem_cons.mp hpm with rfl | hpm'
              · exact not_le.mp hD
              · exact hdb p (by rw [hdD]; exact List.mem_cons_of_mem _ hpm')
            have hcb' : ∀ p ∈ (step s).creditors.drop (step s).j, eps < p.2 := by
              rw [e2, ej]
              intro p hpm
              exact hcb p (by rw [hcD]; exact List.mem_cons_of_mem _ hpm)
            have hih := ih (step s) ts hdb' hcb' h
            rw [et, e1, e2, ei, ej, List.length_set] at hih
            omega
          · -- neither cursor advances: the run cannot return
            exfalso
            have hnone := diverge_of_no_advance hc hD hC hp n
            rw [hnone] at h
            exact Option.noConfusion h
      · -- pay = 0 at negative debt and positive credit: the state repeats
        have hfix := step_eq_self hiD hjC hp hdcur hccur
        rw [hfix] at h
        exact ih s ts hdb hcb h
    · rw [if_neg hc] at h
      simp only [Option.some.injEq] at h
      subst h
      omega

/-- **C5.** On any input on which the function returns, the number of
transfers is at most `debtor_count + creditor_count - 1`. -/
theorem c5_transfer_count_bound (bal : Dict) (ts : List Transfer)
    (h : Settles bal ts) :
    ts.length ≤ (bal.filter (fun p => decide (p.2 < -eps))).length
      + (bal.filter (fun p => decide (eps < p.2))).length - 1 := by
  obtain ⟨n, hrun⟩ := h
  have hdb : ∀ p ∈ (initState bal).debtors.drop (initState bal).i, p.2 < -eps := by
    intro p hpm
    have hpm' : p ∈ debtorsOf bal := by
      simpa [initState] using hpm
    exact (mem_debtorsOf hpm').2
  have hcb : ∀ p ∈ (initState bal).creditors.drop (initState bal).j, eps < p.2 := by
    intro p hpm
    have hpm' : p ∈ creditorsOf bal := by
      simpa [initState] using hpm
    exact (mem_creditorsOf hpm').2
  have haux := c5_aux n (initState bal) ts hdb hcb hrun
  have hld : (debtorsOf bal).length
      = (bal.filter (fun p => decide (p.2 < -eps))).length :=
    (stableSort_perm _ _).length_eq
  have hlc : (creditorsOf bal).length
      = (bal.filter (fun p => decide (eps < p.2))).length :=
    (stableSort_perm _ _).length_eq
  have hinit : (initState bal).transfers.length = 0 := rfl
  have hinitd : (initState bal).debtors.length = (debtorsOf bal).length := rfl
  have hinitc : (initState bal).creditors.length = (creditorsOf bal).length := rfl
  have hiniti : (initState bal).i = 0 := rfl
  have hinitj : (initState bal).j = 0 := rfl
  rw [hinit, hinitd, hinitc, hiniti, hinitj, hld, hlc] at haux
  omega

/-- Witness for C5 at the repository's own test input. -/
theorem c5_witness :
    ([("Alex", "Bri", 15)] : List Transfer).length ≤
      (([("Alex", -15), ("Bri", 15), ("Casey", 0)] : Dict).filter
        (fun p => decide (p.2 < -eps))).length
      + (([("Alex", -15), ("Bri", 15), ("Casey", 0)] : Dict).filter
        (fun p => decide (eps < p.2))).length - 1 :=
  c5_transfer_count_bound [("Alex", -15), ("Bri", 15), ("Casey", 0)]
    [("Alex", "Bri", 15)] ⟨2, by with_unfolding_all decide⟩

/-- **C2 (divergence witness).** On `{a: -0.004, b: 0.004}` the loop reaches a
fixed point with the guard still true (`pay` rounds to `0` and neither cursor
advances), so no amount of fuel makes the function return: the Python loop
runs forever on this input. -/
theorem c2_divergence :
    ∀ fuel, min_cash_flow_settlement [("a", -(1/250)), ("b", 1/250)] fuel = none := by
  intro fuel
  exact loop_fix (by with_unfolding_all decide) (by with_unfolding_all decide) fuel

end AllInBank
